import Mathlib

/-!
Shallow embedding of the `slices` package of syumai/go-generics
(src/slices/slices.go) and proofs about it.

A Go slice is modelled as a view over a backing array: `data` is the
backing storage from the view's offset to the end of the allocation
(so the capacity is `data.length`), and `len` is the view's length.
Go maintains `len ≤ cap` for every slice; that invariant is `wfS`.

Functions that can panic in Go (out-of-range slice expressions,
negative sizes) are embedded as `Except Unit` values: `.error ()`
stands for the panic. `copy(dst, src)` on overlapping views behaves
as a memmove in Go ("the source and destination may overlap"), which
`writeAt` models by capturing the source elements before writing.
-/

namespace GoGenerics

/-- A Go slice: backing storage from the view's offset onward plus the
view's length. Capacity is `data.length`. -/
structure GoSlice (α : Type) where
  data : List α
  len : Nat
deriving DecidableEq, Repr

namespace GoSlice

/-- The elements of the slice view: the first `len` entries of the backing. -/
def elems (s : GoSlice α) : List α :=
  s.data.take s.len

/-- `cap(s)` in Go: size of the backing storage from the view's offset. -/
def cap (s : GoSlice α) : Nat :=
  s.data.length

/-- Go's slice invariant `len(s) ≤ cap(s)`. -/
def wfS (s : GoSlice α) : Prop :=
  s.len ≤ s.data.length

instance (s : GoSlice α) : Decidable s.wfS := by
  unfold wfS; infer_instance

end GoSlice

open GoSlice

/-- `copy` into backing storage `d` at offset `k`: overwrites
`d[k], d[k+1], ...` with the elements of `src` (captured first, i.e.
memmove semantics). All call sites satisfy `k + src.length ≤ d.length`. -/
def writeAt (d : List α) (k : Nat) (src : List α) : List α :=
  d.take k ++ src ++ d.drop (k + src.length)

/-- Embedding of `Delete(s, i, j) = s[:i+copy(s[i:], s[j:])]`
(src/slices/slices.go line 170).

`s[i:]` (resp. `s[j:]`) panics unless `0 ≤ i ≤ len(s)`; that is the
`if` guard. `copy(s[i:], s[j:])` copies `min (len-i) (len-j)` elements
of the view starting at `j` onto the positions starting at `i`, and
returns that count; the result is the same backing re-sliced to
`i + count`. Note the code performs no check that `i ≤ j`. -/
def Delete (s : GoSlice α) (i j : Int) : Except Unit (GoSlice α) :=
  if 0 ≤ i ∧ i ≤ (s.len : Int) ∧ 0 ≤ j ∧ j ≤ (s.len : Int) then
    let i' := i.toNat
    let j' := j.toNat
    let m := min (s.len - i') (s.len - j')
    .ok { data := writeAt s.data i' ((s.data.drop j').take m), len := i' + m }
  else
    .error ()

/-- Embedding of `Insert(s, i, v...)` (src/slices/slices.go lines 150-162).
The source body refers to the variadic parameter as `vs` (declared `v`)
and allocates `make([]int, ...)` in the slow path; per the source's own
intent (spec design note) this is the variadic values list and a fresh
backing of the generic element type. The values computed are unaffected:
the slow path overwrites every position of the new backing.

Fast path (`len(s)+len(vs) ≤ cap(s)`): `s2 := s[:n]`, then
`copy(s2[i+len(vs):], s[i:])`, then `copy(s2[i:], vs)`; panics exactly
when `i` is outside `[0, len(s)]` (from `s2[i+len(vs):]` / `s[i:]`).
Slow path: fresh backing of length `n`, three copies
`s[:i]`, `vs`, `s[i:]`; again panics exactly when `i` is outside
`[0, len(s)]`, given `len ≤ cap`. -/
def Insert (s : GoSlice α) (i : Int) (vs : List α) : Except Unit (GoSlice α) :=
  let n := s.len + vs.length
  if n ≤ s.cap then
    if 0 ≤ i ∧ i ≤ (s.len : Int) then
      let i' := i.toNat
      let d1 := writeAt s.data (i' + vs.length) ((s.data.drop i').take (s.len - i'))
      let d2 := writeAt d1 i' vs
      .ok { data := d2, len := n }
    else
      .error ()
  else
    if 0 ≤ i ∧ i ≤ (s.len : Int) then
      let i' := i.toNat
      .ok { data := s.data.take i' ++ vs ++ (s.data.drop i').take (s.len - i'), len := n }
    else
      .error ()

/-- Embedding of `Clone(s) = copy(make(S, len(s), cap(s)), s)`
(src/slices/slices.go lines 175-179): fresh zeroed backing of size
`cap(s)` (zero value modelled by `default`), first `len(s)` entries
overwritten with the elements of `s`. -/
def Clone [Inhabited α] (s : GoSlice α) : GoSlice α :=
  { data := s.elems ++ List.replicate (s.cap - s.len) default, len := s.len }

/-- Embedding of `Grow(s, n) = append(s[:cap(s)], make([]T, n, n)...)[:len(s)]`
(src/slices/slices.go lines 219-221). `make([]T, n, n)` panics for `n < 0`;
otherwise the whole backing (through `cap`) is kept and `n` zero values
(modelled by `default`) are appended — `append` guarantees capacity at
least the needed `cap(s) + n`, modelled here as exactly that — and the
result is re-sliced to the original length. -/
def Grow [Inhabited α] (s : GoSlice α) (n : Int) : Except Unit (GoSlice α) :=
  if 0 ≤ n then
    .ok { data := s.data ++ List.replicate n.toNat default, len := s.len }
  else
    .error ()

/-- The loop of `Compact` / `CompactFunc` (src/slices/slices.go lines
188-195 and 204-211): `j := 1; for i := 1; i < len(s); i++ { if
eq(s[i], s[j-1]) continue; s[j] = s[i]; j++ }`, mutating the backing
in place. State is the backing `d` and the write cursor `j`. The extra
`fuel` argument (always called with `l - i`, an upper bound on the
remaining iterations of the `for` loop, whose own `i < l` test is kept)
makes the recursion structural so the loop evaluates by reduction. -/
def compactGoF [Inhabited α] (eq' : α → α → Bool) (d : List α) (l i j : Nat) :
    Nat → List α × Nat
  | 0 => (d, j)
  | fuel + 1 =>
    if i < l then
      if eq' (d.getD i default) (d.getD (j - 1) default) then
        compactGoF eq' d l (i + 1) j fuel
      else
        compactGoF eq' (d.set j (d.getD i default)) l (i + 1) (j + 1) fuel
    else
      (d, j)

/-- The `Compact` loop run to completion from position `i`. -/
def compactGo [Inhabited α] (eq' : α → α → Bool) (d : List α) (l i j : Nat) :
    List α × Nat :=
  compactGoF eq' d l i j (l - i)

/-- Embedding of `CompactFunc(s, cmp)` (src/slices/slices.go lines
200-213): empty and single-element slices are returned unchanged,
otherwise the in-place loop runs and the result is `s[:j]`. -/
def CompactFunc [Inhabited α] (s : GoSlice α) (eq' : α → α → Bool) : GoSlice α :=
  if s.len = 0 ∨ s.len = 1 then s
  else
    let r := compactGo eq' s.data s.len 1 1
    { data := r.1, len := r.2 }

/-- Embedding of `Compact(s)` (src/slices/slices.go lines 184-197):
identical loop with the element type's equality `s[i] == s[j-1]`. -/
def Compact [DecidableEq α] [Inhabited α] (s : GoSlice α) : GoSlice α :=
  if s.len = 0 ∨ s.len = 1 then s
  else
    let r := compactGo (fun a b => decide (a = b)) s.data s.len 1 1
    { data := r.1, len := r.2 }

/-- Embedding of `Compare(s1, s2)` (src/slices/slices.go lines 51-75):
walk the common prefix (`maxLen = min` of the lengths); at the first
pair with `s1[i] == s2[i]` false, return -1 if `s1[i] < s2[i]`, else 1;
if the loop finishes, compare the lengths (equal ⇒ 0, shorter ⇒ -1,
longer ⇒ 1). The walk of the indexed loop is embedded as structural
recursion on the two element lists; when either list is exhausted the
remaining lengths decide, exactly as the source's final length check. -/
def Compare [LinearOrder α] : List α → List α → Int
  | x :: xs, y :: ys =>
    if x = y then Compare xs ys
    else if x < y then -1 else 1
  | l1, l2 =>
    if l1.length = l2.length then 0
    else if l1.length < l2.length then -1 else 1

/-- The spec's description of `Compare`, stated as its own recursion
(for the equivalence proof): -1/+1 at the first index where the
elements differ per the element ordering; exhausted common prefix falls
back to length (shorter is less); both empty is 0. -/
def lexSpec [LinearOrder α] : List α → List α → Int
  | [], [] => 0
  | [], _ :: _ => -1
  | _ :: _, [] => 1
  | x :: xs, y :: ys =>
    if x < y then -1
    else if y < x then 1
    else lexSpec xs ys

/-- Embedding of `Index(s, v)`'s loop (src/slices/slices.go lines
106-113): scan from position `i`, return the index of the first
element equal to `v`, or -1. -/
def indexGo [DecidableEq α] (v : α) : List α → Nat → Int
  | [], _ => -1
  | x :: xs, i => if x = v then (i : Int) else indexGo v xs (i + 1)

/-- `Index(s, v)`: first index of `v` in `s`, or -1 if absent. -/
def Index [DecidableEq α] (s : List α) (v : α) : Int :=
  indexGo v s 0

/-- Embedding of `Contains(s, v)` (src/slices/slices.go lines 127-134):
an independent scan returning true at the first element equal to `v`. -/
def Contains [DecidableEq α] : List α → α → Bool
  | [], _ => false
  | x :: xs, v => if x = v then true else Contains xs v

/-- The adjacent-run collapse that `Compact`'s loop computes, as a pure
recursion: `last` is the most recently kept element; an element is kept
iff `eq'` relates it to `last` as false. -/
def dedupAdjAux (eq' : α → α → Bool) (last : α) : List α → List α
  | [] => []
  | x :: xs => if eq' x last then dedupAdjAux eq' last xs else x :: dedupAdjAux eq' x xs

/-- Adjacent-run collapse of a whole list: the head is always kept. -/
def dedupAdj (eq' : α → α → Bool) : List α → List α
  | [] => []
  | x :: xs => x :: dedupAdjAux eq' x xs

/-! ### Helper lemmas about `writeAt` and slice views -/

theorem length_writeAt (d src : List α) (k : Nat) (h : k + src.length ≤ d.length) :
    (writeAt d k src).length = d.length := by
  simp only [writeAt, List.length_append, List.length_take, List.length_drop]
  omega

theorem writeAt_take_of_le (d src : List α) (k m : Nat) (hm : m ≤ k) (hk : k ≤ d.length) :
    (writeAt d k src).take m = d.take m := by
  unfold writeAt
  rw [List.append_assoc, List.take_append_of_le_length (by simp; omega),
    List.take_take, Nat.min_eq_left hm]

theorem writeAt_take_end (d src : List α) (k : Nat) (hk : k ≤ d.length) :
    (writeAt d k src).take (k + src.length) = d.take k ++ src := by
  unfold writeAt
  exact List.take_left' (by simp; omega)

theorem writeAt_drop_end (d src : List α) (k : Nat) (hk : k ≤ d.length) :
    (writeAt d k src).drop (k + src.length) = d.drop (k + src.length) := by
  unfold writeAt
  exact List.drop_left' (by simp; omega)

theorem writeAt_drop_at (d src : List α) (k : Nat) (hk : k ≤ d.length) :
    (writeAt d k src).drop k = src ++ d.drop (k + src.length) := by
  unfold writeAt
  rw [List.append_assoc]
  exact List.drop_left' (by simp; omega)

theorem elems_take (s : GoSlice α) (m : Nat) (hm : m ≤ s.len) :
    s.elems.take m = s.data.take m := by
  unfold GoSlice.elems
  rw [List.take_take, Nat.min_eq_left hm]

theorem elems_drop (s : GoSlice α) (m : Nat) :
    s.elems.drop m = (s.data.drop m).take (s.len - m) := by
  unfold GoSlice.elems
  exact List.drop_take s.len m s.data

theorem length_elems (s : GoSlice α) (hw : s.wfS) : s.elems.length = s.len := by
  unfold GoSlice.elems
  simp only [List.length_take]
  exact Nat.min_eq_left hw

/-! ### Behaviour of `Delete` -/

theorem Delete_ok (s : GoSlice α) (i j : Int) (hw : s.wfS) (h0 : 0 ≤ i)
    (hij : i ≤ j) (hj : j ≤ (s.len : Int)) :
    ∃ r, Delete s i j = .ok r ∧
      r.len = s.len - (j.toNat - i.toNat) ∧
      r.elems = s.elems.take i.toNat ++ s.elems.drop j.toNat ∧
      r.cap = s.cap ∧ r.wfS := by
  have hij' : i.toNat ≤ j.toNat := by omega
  have hjl : j.toNat ≤ s.len := by omega
  have hdl : s.len ≤ s.data.length := hw
  rw [Delete, if_pos ⟨h0, by omega, by omega, hj⟩]
  simp only
  set i' := i.toNat with hi'
  set j' := j.toNat with hj'
  have hmin : min (s.len - i') (s.len - j') = s.len - j' := by omega
  rw [hmin]
  have hsrclen : ((s.data.drop j').take (s.len - j')).length = s.len - j' := by
    simp only [List.length_take, List.length_drop]
    omega
  refine ⟨_, rfl, ?_, ?_, ?_, ?_⟩
  · show i' + (s.len - j') = s.len - (j' - i')
    omega
  · show (writeAt s.data i' ((s.data.drop j').take (s.len - j'))).take (i' + (s.len - j'))
      = s.elems.take i' ++ s.elems.drop j'
    rw [elems_take s i' (by omega), elems_drop s j']
    have hend := writeAt_take_end s.data ((s.data.drop j').take (s.len - j')) i'
      (by omega)
    rw [hsrclen] at hend
    exact hend
  · show (writeAt s.data i' ((s.data.drop j').take (s.len - j'))).length = s.data.length
    exact length_writeAt _ _ _ (by omega)
  · show i' + (s.len - j')
      ≤ (writeAt s.data i' ((s.data.drop j').take (s.len - j'))).length
    rw [length_writeAt _ _ _ (by omega)]
    omega

theorem Delete_err (s : GoSlice α) (i j : Int)
    (h : ¬(0 ≤ i ∧ i ≤ (s.len : Int) ∧ 0 ≤ j ∧ j ≤ (s.len : Int))) :
    Delete s i j = .error () := by
  rw [Delete, if_neg h]

theorem Delete_empty_range (s : GoSlice α) (i : Int) (hw : s.wfS) (h0 : 0 ≤ i)
    (hil : i ≤ (s.len : Int)) :
    Delete s i i = .ok s := by
  have hdl : s.len ≤ s.data.length := hw
  have hil' : i.toNat ≤ s.len := by omega
  rw [Delete, if_pos ⟨h0, hil, h0, hil⟩]
  simp only [Nat.min_self]
  set i' := i.toNat with hi'
  have hdata : writeAt s.data i' ((s.data.drop i').take (s.len - i')) = s.data := by
    unfold writeAt
    have h1 : (s.data.drop i').take (s.len - i') ++
        (s.data.drop i').drop (s.len - i') = s.data.drop i' :=
      List.take_append_drop _ _
    have h2 : (s.data.drop i').drop (s.len - i') = s.data.drop (i' + (s.len - i')) :=
      List.drop_drop _ _ _
    have h3 : ((s.data.drop i').take (s.len - i')).length = s.len - i' := by
      simp only [List.length_take, List.length_drop]
      omega
    rw [h3, List.append_assoc, ← h2, h1, List.take_append_drop]
  rw [hdata]
  have hlen : i' + (s.len - i') = s.len := by omega
  rw [hlen]

/-! ### Behaviour of `Insert` -/

theorem Insert_ok (s : GoSlice α) (i : Int) (vs : List α) (hw : s.wfS)
    (h0 : 0 ≤ i) (hl : i ≤ (s.len : Int)) :
    ∃ r, Insert s i vs = .ok r ∧
      r.len = s.len + vs.length ∧
      r.elems = s.elems.take i.toNat ++ vs ++ s.elems.drop i.toNat ∧
      r.wfS := by
  have hdl : s.len ≤ s.data.length := hw
  have hil : i.toNat ≤ s.len := by omega
  simp only [Insert]
  set i' := i.toNat with hi'
  set n := s.len + vs.length with hn
  have hmidlen : ((s.data.drop i').take (s.len - i')).length = s.len - i' := by
    simp only [List.length_take, List.length_drop]
    omega
  by_cases hc : n ≤ s.cap
  · rw [if_pos hc, if_pos ⟨h0, hl⟩]
    set mid := (s.data.drop i').take (s.len - i') with hmid
    set d1 := writeAt s.data (i' + vs.length) mid with hd1
    have hcap : s.cap = s.data.length := rfl
    have hd1len : d1.length = s.data.length := by
      rw [hd1]
      exact length_writeAt _ _ _ (by omega)
    have hd2len : (writeAt d1 i' vs).length = s.data.length := by
      rw [length_writeAt _ _ _ (by omega), hd1len]
    refine ⟨_, rfl, rfl, ?_, ?_⟩
    · show (writeAt d1 i' vs).take n = s.elems.take i' ++ vs ++ s.elems.drop i'
      rw [elems_take s i' hil, elems_drop s i']
      have step1 : (writeAt d1 i' vs).take n
          = (d1.take i' ++ vs) ++ (d1.drop (i' + vs.length)).take (s.len - i') := by
        unfold writeAt
        have hfront : (d1.take i' ++ vs).length = i' + vs.length := by
          simp only [List.length_append, List.length_take]
          rw [hd1len]
          omega
        have hcount : n = (d1.take i' ++ vs).length + (s.len - i') := by
          rw [hfront]; omega
        rw [hcount]
        exact List.take_append _
      have step2 : d1.take i' = s.data.take i' := by
        rw [hd1]
        exact writeAt_take_of_le _ _ _ _ (by omega) (by omega)
      have step3 : (d1.drop (i' + vs.length)).take (s.len - i') = mid := by
        rw [hd1, writeAt_drop_at _ _ _ (by omega)]
        exact List.take_left' hmidlen
      rw [step1, step2, step3, List.append_assoc]
    · show n ≤ (writeAt d1 i' vs).length
      rw [hd2len]
      have : s.cap = s.data.length := rfl
      omega
  · rw [if_neg hc, if_pos ⟨h0, hl⟩]
    refine ⟨_, rfl, rfl, ?_, ?_⟩
    · show (s.data.take i' ++ vs ++ (s.data.drop i').take (s.len - i')).take n
        = s.elems.take i' ++ vs ++ s.elems.drop i'
      rw [elems_take s i' hil, elems_drop s i']
      exact List.take_of_length_le (by simp; omega)
    · show n ≤ (s.data.take i' ++ vs ++ (s.data.drop i').take (s.len - i')).length
      simp only [List.length_append, List.length_take, List.length_drop]
      omega

theorem Insert_err (s : GoSlice α) (i : Int) (vs : List α)
    (h : ¬(0 ≤ i ∧ i ≤ (s.len : Int))) :
    Insert s i vs = .error () := by
  simp only [Insert]
  by_cases hc : s.len + vs.length ≤ s.cap
  · rw [if_pos hc, if_neg h]
  · rw [if_neg hc, if_neg h]

/-! ### Behaviour of `Clone` -/

theorem Clone_len [Inhabited α] (s : GoSlice α) : (Clone s).len = s.len := rfl

theorem Clone_elems [Inhabited α] (s : GoSlice α) (hw : s.wfS) :
    (Clone s).elems = s.elems := by
  show (s.elems ++ List.replicate (s.cap - s.len) default).take s.len = s.elems
  exact List.take_left' (length_elems s hw)

theorem Clone_wf [Inhabited α] (s : GoSlice α) (hw : s.wfS) : (Clone s).wfS := by
  show s.len ≤ (s.elems ++ List.replicate (s.cap - s.len) default).length
  simp only [List.length_append, List.length_replicate, length_elems s hw]
  omega

/-! ### `Compare` agrees with the spec's lexicographic recursion -/

theorem Compare_eq_lexSpec [LinearOrder α] :
    ∀ s1 s2 : List α, Compare s1 s2 = lexSpec s1 s2 := by
  intro s1
  induction s1 with
  | nil =>
    intro s2
    cases s2 with
    | nil => rfl
    | cons y ys =>
      show (if ([] : List α).length = (y :: ys).length then (0 : Int)
        else if ([] : List α).length < (y :: ys).length then -1 else 1) = -1
      simp
  | cons x xs ih =>
    intro s2
    cases s2 with
    | nil =>
      show (if (x :: xs).length = ([] : List α).length then (0 : Int)
        else if (x :: xs).length < ([] : List α).length then -1 else 1) = 1
      simp
    | cons y ys =>
      show (if x = y then Compare xs ys else if x < y then (-1 : Int) else 1)
        = (if x < y then (-1 : Int) else if y < x then 1 else lexSpec xs ys)
      by_cases hxy : x = y
      · subst hxy
        rw [if_pos rfl, if_neg (lt_irrefl x), if_neg (lt_irrefl x)]
        exact ih ys
      · by_cases hlt : x < y
        · rw [if_neg hxy, if_pos hlt, if_pos hlt]
        · have hgt : y < x := lt_of_le_of_ne (not_lt.mp hlt) (Ne.symm hxy)
          rw [if_neg hxy, if_neg hlt, if_neg hlt, if_pos hgt]

/-! ### `Index` and `Contains` -/

theorem indexGo_nonneg_iff [DecidableEq α] (v : α) :
    ∀ (xs : List α) (k : Nat), 0 ≤ indexGo v xs k ↔ Contains xs v = true := by
  intro xs
  induction xs with
  | nil => intro k; simp [indexGo, Contains]
  | cons x xs ih =>
    intro k
    by_cases h : x = v
    · simp [indexGo, Contains, h]
    · simp only [indexGo, Contains, if_neg h]
      exact ih (k + 1)

/-! ### The adjacent-run collapse `dedupAdj` -/

theorem dedupAdjAux_cons_pos (eq' : α → α → Bool) (last x : α) (xs : List α)
    (h : eq' x last = true) :
    dedupAdjAux eq' last (x :: xs) = dedupAdjAux eq' last xs := by
  simp only [dedupAdjAux, h, if_true]

theorem dedupAdjAux_cons_neg (eq' : α → α → Bool) (last x : α) (xs : List α)
    (h : eq' x last = false) :
    dedupAdjAux eq' last (x :: xs) = x :: dedupAdjAux eq' x xs := by
  simp only [dedupAdjAux, h, Bool.false_eq_true, if_false]

theorem dedupAdjAux_sublist (eq' : α → α → Bool) :
    ∀ (xs : List α) (last : α), List.Sublist (dedupAdjAux eq' last xs) xs := by
  intro xs
  induction xs with
  | nil => intro last; simp [dedupAdjAux]
  | cons x xs ih =>
    intro last
    cases hxl : eq' x last with
    | true =>
      rw [dedupAdjAux_cons_pos eq' last x xs hxl]
      exact (ih last).cons x
    | false =>
      rw [dedupAdjAux_cons_neg eq' last x xs hxl]
      exact (ih x).cons₂ x

theorem dedupAdjAux_chain (eq' : α → α → Bool) :
    ∀ (xs : List α) (last : α),
      List.Chain' (fun a b => eq' b a = false) (last :: dedupAdjAux eq' last xs) := by
  intro xs
  induction xs with
  | nil => intro last; simp [dedupAdjAux]
  | cons x xs ih =>
    intro last
    cases hxl : eq' x last with
    | true =>
      rw [dedupAdjAux_cons_pos eq' last x xs hxl]
      exact ih last
    | false =>
      rw [dedupAdjAux_cons_neg eq' last x xs hxl, List.chain'_cons]
      exact ⟨hxl, ih x⟩

theorem dedupAdj_sublist (eq' : α → α → Bool) (l : List α) :
    List.Sublist (dedupAdj eq' l) l := by
  cases l with
  | nil => simp [dedupAdj]
  | cons x xs => exact (dedupAdjAux_sublist eq' xs x).cons₂ x

theorem dedupAdj_length_le (eq' : α → α → Bool) (l : List α) :
    (dedupAdj eq' l).length ≤ l.length :=
  (dedupAdj_sublist eq' l).length_le

theorem dedupAdj_chain (eq' : α → α → Bool) (l : List α) :
    List.Chain' (fun a b => eq' b a = false) (dedupAdj eq' l) := by
  cases l with
  | nil => simp [dedupAdj]
  | cons x xs => exact dedupAdjAux_chain eq' xs x

/-! ### The `Compact` loop computes `dedupAdj` -/

theorem compactGoF_stop [Inhabited α] (eq' : α → α → Bool) (d : List α)
    (l i j fuel : Nat) (h : ¬ i < l) :
    compactGoF eq' d l i j fuel = (d, j) := by
  cases fuel with
  | zero => rfl
  | succ fuel => simp only [compactGoF, if_neg h]

theorem compactGo_stop [Inhabited α] (eq' : α → α → Bool) (d : List α)
    (l i j : Nat) (h : ¬ i < l) :
    compactGo eq' d l i j = (d, j) :=
  compactGoF_stop eq' d l i j (l - i) h

theorem compactGo_step [Inhabited α] (eq' : α → α → Bool) (d : List α)
    (l i j : Nat) (h : i < l) :
    compactGo eq' d l i j
      = if eq' (d.getD i default) (d.getD (j - 1) default) then
          compactGo eq' d l (i + 1) j
        else
          compactGo eq' (d.set j (d.getD i default)) l (i + 1) (j + 1) := by
  unfold compactGo
  rw [show l - i = (l - (i + 1)) + 1 from by omega]
  simp only [compactGoF, if_pos h]

theorem take_set_succ (l : List α) (n : Nat) (a : α) (h : n < l.length) :
    (l.set n a).take (n + 1) = l.take n ++ [a] := by
  rw [List.set_eq_take_append_cons_drop, if_pos h]
  have hlen : (l.take n).length = n := by simp; omega
  calc (l.take n ++ a :: l.drop (n + 1)).take (n + 1)
      = (l.take n ++ a :: l.drop (n + 1)).take ((l.take n).length + 1) := by rw [hlen]
    _ = l.take n ++ (a :: l.drop (n + 1)).take 1 := List.take_append 1
    _ = l.take n ++ [a] := by simp

theorem compactGo_spec [Inhabited α] (eq' : α → α → Bool) (l : Nat) :
    ∀ (k i j : Nat) (d : List α), l - i = k → 1 ≤ j → j ≤ i → l ≤ d.length →
      (compactGo eq' d l i j).1.length = d.length ∧
      (compactGo eq' d l i j).2
        = j + (dedupAdjAux eq' (d.getD (j - 1) default)
            ((d.drop i).take (l - i))).length ∧
      (compactGo eq' d l i j).1.take (compactGo eq' d l i j).2
        = d.take j
          ++ dedupAdjAux eq' (d.getD (j - 1) default) ((d.drop i).take (l - i)) := by
  intro k
  induction k with
  | zero =>
    intro i j d hk h1 hji hl
    have hnl : ¬ i < l := by omega
    rw [compactGo_stop eq' d l i j hnl]
    have hz : l - i = 0 := by omega
    rw [hz]
    simp [dedupAdjAux]
  | succ k ih =>
    intro i j d hk h1 hji hl
    have hil : i < l := by omega
    have hid : i < d.length := by omega
    have hjd : j < d.length := by omega
    rw [compactGo_step eq' d l i j hil]
    have hdecomp : (d.drop i).take (l - i)
        = d.getD i default :: (d.drop (i + 1)).take (l - (i + 1)) := by
      rw [List.getD_eq_getElem d default hid, List.drop_eq_getElem_cons hid,
        show l - i = (l - (i + 1)) + 1 by omega, List.take_succ_cons]
    cases hxl : eq' (d.getD i default) (d.getD (j - 1) default) with
    | true =>
      rw [if_pos rfl]
      obtain ⟨ih1, ih2, ih3⟩ := ih (i + 1) j d (by omega) h1 (by omega) hl
      refine ⟨ih1, ?_, ?_⟩
      · rw [ih2, hdecomp, dedupAdjAux_cons_pos _ _ _ _ hxl]
      · rw [ih3, hdecomp, dedupAdjAux_cons_pos _ _ _ _ hxl]
    | false =>
      rw [if_neg Bool.false_ne_true]
      have hd2len : (d.set j (d.getD i default)).length = d.length := by simp
      obtain ⟨ih1, ih2, ih3⟩ := ih (i + 1) (j + 1) (d.set j (d.getD i default))
        (by omega) (by omega) (by omega) (by omega)
      have hgetd2 : (d.set j (d.getD i default)).getD ((j + 1) - 1) default
          = d.getD i default := by
        simp only [Nat.add_sub_cancel]
        rw [List.getD_eq_getElem _ _ (by simpa using hjd)]
        exact List.getElem_set_self (by simpa using hjd)
      have hdropd2 : (d.set j (d.getD i default)).drop (i + 1) = d.drop (i + 1) :=
        List.drop_set_of_lt _ _ (by omega)
      have htaked2 : (d.set j (d.getD i default)).take (j + 1)
          = d.take j ++ [d.getD i default] :=
        take_set_succ d j _ hjd
      rw [hgetd2, hdropd2] at ih2 ih3
      rw [htaked2] at ih3
      refine ⟨by rw [ih1, hd2len], ?_, ?_⟩
      · rw [ih2, hdecomp, dedupAdjAux_cons_neg _ _ _ _ hxl, List.length_cons]
        omega
      · rw [ih3, hdecomp, dedupAdjAux_cons_neg _ _ _ _ hxl, List.append_assoc]
        rfl

theorem CompactFunc_spec [Inhabited α] (s : GoSlice α) (eq' : α → α → Bool)
    (hw : s.wfS) :
    (CompactFunc s eq').elems = dedupAdj eq' s.elems ∧
    (CompactFunc s eq').cap = s.cap ∧
    (CompactFunc s eq').len = (dedupAdj eq' s.elems).length := by
  have hdl : s.len ≤ s.data.length := hw
  by_cases h01 : s.len = 0 ∨ s.len = 1
  · rw [CompactFunc, if_pos h01]
    rcases h01 with h0 | h1
    · have he : s.elems = [] := by
        unfold GoSlice.elems
        rw [h0, List.take_zero]
      refine ⟨by rw [he]; rfl, rfl, ?_⟩
      rw [he, h0]
      rfl
    · obtain ⟨x, d', hd⟩ : ∃ x d', s.data = x :: d' := by
        cases hdata : s.data with
        | nil => exfalso; rw [hdata] at hdl; simp at hdl; omega
        | cons x d' => exact ⟨x, d', rfl⟩
      have he : s.elems = [x] := by
        unfold GoSlice.elems
        rw [h1, hd]
        rfl
      refine ⟨?_, rfl, ?_⟩
      · rw [he]
        rfl
      · rw [he, h1]
        rfl
  · have hl2 : 2 ≤ s.len := by omega
    rw [CompactFunc, if_neg h01]
    obtain ⟨sp1, sp2, sp3⟩ := compactGo_spec eq' s.len (s.len - 1) 1 1 s.data
      (by omega) le_rfl le_rfl hdl
    obtain ⟨x, d', hd⟩ : ∃ x d', s.data = x :: d' := by
      cases hdata : s.data with
      | nil => exfalso; rw [hdata] at hdl; simp at hdl; omega
      | cons x d' => exact ⟨x, d', rfl⟩
    have helems : s.elems = x :: d'.take (s.len - 1) := by
      unfold GoSlice.elems
      rw [hd]
      conv_lhs => rw [show s.len = (s.len - 1) + 1 from by omega, List.take_succ_cons]
    have h1 : s.data.take 1 = [x] := by rw [hd]; rfl
    have h2 : s.data.getD 0 default = x := by rw [hd]; rfl
    have h3 : s.data.drop 1 = d' := by rw [hd]; rfl
    have hded : dedupAdj eq' s.elems
        = [x] ++ dedupAdjAux eq' x (d'.take (s.len - 1)) := by
      rw [helems]
      rfl
    simp only [Nat.sub_self] at sp2 sp3
    rw [h2, h3] at sp2 sp3
    rw [h1] at sp3
    refine ⟨?_, ?_, ?_⟩
    · show (compactGo eq' s.data s.len 1 1).1.take (compactGo eq' s.data s.len 1 1).2
        = dedupAdj eq' s.elems
      rw [sp3, hded]
    · exact sp1
    · show (compactGo eq' s.data s.len 1 1).2 = (dedupAdj eq' s.elems).length
      rw [sp2, hded]
      simp only [List.length_append, List.length_cons, List.length_nil]

theorem Compact_eq_compactFunc [DecidableEq α] [Inhabited α] (s : GoSlice α) :
    Compact s = CompactFunc s (fun a b => decide (a = b)) := rfl

theorem dedupAdj_headOpt (eq' : α → α → Bool) (l : List α) :
    (dedupAdj eq' l).head? = l.head? := by
  cases l <;> rfl

theorem dedupAdj_pos_length (eq' : α → α → Bool) (x : α) (xs : List α) :
    0 < (dedupAdj eq' (x :: xs)).length := by
  simp [dedupAdj]

/-! ### The claims -/

/-- C1: the claim says `Delete(s, i, j)` fails whenever `¬(0 ≤ i ≤ j ≤ len)`,
in particular that it aborts when `i > j` with both indices in range. The
code does not: `s[:i+copy(s[i:], s[j:])]` performs no `i ≤ j` check, and at
`s = [1,2,3,4,5]`, `i = 3`, `j = 1` it succeeds, returning the corrupted
full-length slice `[1,2,3,2,3]` instead of failing — contradicting the
function's own documentation ("Delete panics if s[i:j] is not a valid slice
of s"). -/
theorem claim_C1_delete_does_not_abort_on_reversed_range :
    Delete (⟨[1, 2, 3, 4, 5], 5⟩ : GoSlice Int) 3 1
      = .ok ⟨[1, 2, 3, 2, 3], 5⟩ := by
  rfl

/-- C2: for a well-formed slice and `0 ≤ i ≤ len`, `Insert(s, i, vs...)`
returns a slice whose elements are `s[0:i] ++ vs ++ s[i:len]` with length
`len + |vs|`; for `i` outside `[0, len]` it fails with the out-of-range
error; and `Insert([1,2,3], 1, 8, 9)` gives `[1,8,9,2,3]`. -/
theorem claim_C2_insert_correct :
    (∀ (α : Type) (s : GoSlice α) (i : Int) (vs : List α),
      s.wfS → 0 ≤ i → i ≤ (s.len : Int) →
      ∃ r, Insert s i vs = .ok r ∧ r.len = s.len + vs.length ∧
        r.elems = s.elems.take i.toNat ++ vs ++ s.elems.drop i.toNat) ∧
    (∀ (α : Type) (s : GoSlice α) (i : Int) (vs : List α),
      ¬(0 ≤ i ∧ i ≤ (s.len : Int)) → Insert s i vs = .error ()) ∧
    (Insert (⟨[1, 2, 3], 3⟩ : GoSlice Int) 1 [8, 9]).map GoSlice.elems
      = .ok [1, 8, 9, 2, 3] := by
  refine ⟨?_, ?_, ?_⟩
  · intro α s i vs hw h0 hl
    obtain ⟨r, h1, h2, h3, _⟩ := Insert_ok s i vs hw h0 hl
    exact ⟨r, h1, h2, h3⟩
  · intro α s i vs h
    exact Insert_err s i vs h
  · rfl

/-- Witness for C2: concrete instances of both conjuncts, hypotheses
discharged by `decide`. -/
theorem claim_C2_insert_correct_witness :
    (∃ r, Insert (⟨[5, 6], 2⟩ : GoSlice Int) 1 [9] = .ok r ∧ r.len = 2 + 1 ∧
      r.elems = [5, 9, 6]) ∧
    Insert (⟨[5, 6], 2⟩ : GoSlice Int) (-1) [9] = .error () := by
  constructor
  · obtain ⟨r, h1, h2, h3⟩ := claim_C2_insert_correct.1 Int ⟨[5, 6], 2⟩ 1 [9]
      (by decide) (by decide) (by decide)
    refine ⟨r, h1, h2, ?_⟩
    rw [h3]
    rfl
  · exact claim_C2_insert_correct.2.1 Int ⟨[5, 6], 2⟩ (-1) [9] (by decide)

/-- C9: for a well-formed slice and `0 ≤ i ≤ len`, the empty deletion range
`Delete(s, i, i)` succeeds and returns the input unchanged (same length,
same elements at every index — indeed the very same view). -/
theorem claim_C9_delete_empty_range_identity :
    ∀ (α : Type) (s : GoSlice α) (i : Int),
      s.wfS → 0 ≤ i → i ≤ (s.len : Int) → Delete s i i = .ok s :=
  fun _ s i hw h0 hl => Delete_empty_range s i hw h0 hl

/-- Witness for C9 at `s = [1,2]`, `i = 1`. -/
theorem claim_C9_witness :
    Delete (⟨[1, 2], 2⟩ : GoSlice Int) 1 1 = .ok ⟨[1, 2], 2⟩ :=
  claim_C9_delete_empty_range_identity Int ⟨[1, 2], 2⟩ 1 (by decide) (by decide)
    (by decide)

/-- C4: for a well-formed slice and `0 ≤ i ≤ j ≤ len`, `Delete(s, i, j)`
succeeds with a view of length `len - (j - i)` whose elements are
`s[0:i] ++ s[j:len]`, over backing storage of unchanged size (the tail is
shifted left in place; nothing is allocated, modelled as preservation of
the capacity); and `Delete([1,2,3,4,5], 1, 3)` gives `[1,4,5]`. -/
theorem claim_C4_delete_functional :
    (∀ (α : Type) (s : GoSlice α) (i j : Int),
      s.wfS → 0 ≤ i → i ≤ j → j ≤ (s.len : Int) →
      ∃ r, Delete s i j = .ok r ∧
        r.len = s.len - (j.toNat - i.toNat) ∧
        r.elems = s.elems.take i.toNat ++ s.elems.drop j.toNat ∧
        r.cap = s.cap) ∧
    (Delete (⟨[1, 2, 3, 4, 5], 5⟩ : GoSlice Int) 1 3).map GoSlice.elems
      = .ok [1, 4, 5] := by
  constructor
  · intro α s i j hw h0 hij hj
    obtain ⟨r, h1, h2, h3, h4, _⟩ := Delete_ok s i j hw h0 hij hj
    exact ⟨r, h1, h2, h3, h4⟩
  · rfl

/-- Witness for C4 at `s = [1,2,3,4,5]`, `i = 1`, `j = 3`. -/
theorem claim_C4_witness :
    ∃ r, Delete (⟨[1, 2, 3, 4, 5], 5⟩ : GoSlice Int) 1 3 = .ok r ∧
      r.len = 5 - (3 - 1) ∧
      r.elems = [1] ++ [4, 5] ∧
      r.cap = 5 := by
  obtain ⟨r, h1, h2, h3, h4⟩ := claim_C4_delete_functional.1 Int
    ⟨[1, 2, 3, 4, 5], 5⟩ 1 3 (by decide) (by decide) (by decide) (by decide)
  refine ⟨r, h1, h2, ?_, h4⟩
  rw [h3]
  rfl

/-- C3: for a well-formed slice, a value `x` and `0 ≤ i ≤ len`,
`Delete(Insert(Clone(s), i, x), i, i+1)` succeeds and its elements are
exactly the elements of the original `s` (insert-then-delete round trip). -/
theorem claim_C3_insert_delete_round_trip :
    ∀ (α : Type) [inst : Inhabited α] (s : GoSlice α) (x : α) (i : Int),
      s.wfS → 0 ≤ i → i ≤ (s.len : Int) →
      ∃ t r, Insert (Clone s) i [x] = .ok t ∧ Delete t i (i + 1) = .ok r ∧
        r.elems = s.elems := by
  intro α _ s x i hw h0 hl
  have hcw := Clone_wf s hw
  have hce := Clone_elems s hw
  have hcl : (Clone s).len = s.len := rfl
  obtain ⟨t, ht, htlen, htel, htw⟩ := Insert_ok (Clone s) i [x] hcw h0
    (by rw [hcl]; exact hl)
  obtain ⟨r, hr, _, hrel, _, _⟩ := Delete_ok t i (i + 1) htw h0 (by omega)
    (by rw [htlen, hcl, List.length_singleton]; push_cast; omega)
  refine ⟨t, r, ht, hr, ?_⟩
  rw [hrel, htel, hce]
  have hlen : (s.elems.take i.toNat).length = i.toNat := by
    rw [List.length_take, length_elems s hw]
    omega
  have htoNat : (i + 1).toNat = i.toNat + 1 := by omega
  rw [htoNat]
  have htk : ((s.elems.take i.toNat ++ [x] ++ s.elems.drop i.toNat).take i.toNat)
      = s.elems.take i.toNat := by
    rw [List.append_assoc]
    exact List.take_left' hlen
  have hdp : ((s.elems.take i.toNat ++ [x] ++ s.elems.drop i.toNat).drop (i.toNat + 1))
      = s.elems.drop i.toNat :=
    List.drop_left' (by rw [List.length_append, hlen]; rfl)
  rw [htk, hdp, List.take_append_drop]

/-- Witness for C3 at `s = [1,2]`, `x = 7`, `i = 1`. -/
theorem claim_C3_witness :
    ∃ t r, Insert (Clone (⟨[1, 2], 2⟩ : GoSlice Int)) 1 [7] = .ok t ∧
      Delete t 1 (1 + 1) = .ok r ∧ r.elems = GoSlice.elems ⟨[1, 2], 2⟩ :=
  claim_C3_insert_delete_round_trip Int ⟨[1, 2], 2⟩ 7 1 (by decide) (by decide)
    (by decide)

/-- C5: `Compare` is the lexicographic comparison the spec describes:
it equals the recursion that returns -1/+1 at the first differing pair
and otherwise decides by length (shorter is less, equal lengths give 0);
`Compare([1,2],[1,2,3]) = -1` and `Compare([1,3],[1,2,3]) = 1`. -/
theorem claim_C5_compare_lexicographic :
    (∀ (α : Type) [inst : LinearOrder α] (s1 s2 : List α),
      Compare s1 s2 = lexSpec s1 s2) ∧
    Compare [(1 : Int), 2] [1, 2, 3] = -1 ∧
    Compare [(1 : Int), 3] [1, 2, 3] = 1 := by
  refine ⟨?_, rfl, rfl⟩
  intro α _ s1 s2
  exact Compare_eq_lexSpec s1 s2

/-- C7: for a well-formed slice, `Grow(s, n)` with `n ≥ 0` succeeds and
returns a slice with the same length and the same elements whose capacity
is at least `len + n` (so `n` more elements fit without reallocation),
and `Grow` fails (panics) when `n` is negative. -/
theorem claim_C7_grow :
    ∀ (α : Type) [inst : Inhabited α] (s : GoSlice α) (n : Int), s.wfS →
      (0 ≤ n → ∃ r, Grow s n = .ok r ∧ r.len = s.len ∧ r.elems = s.elems ∧
        s.len + n.toNat ≤ r.cap) ∧
      (n < 0 → Grow s n = .error ()) := by
  intro α _ s n hw
  constructor
  · intro hn
    rw [Grow, if_pos hn]
    refine ⟨_, rfl, rfl, ?_, ?_⟩
    · show (s.data ++ List.replicate n.toNat default).take s.len = s.elems
      rw [List.take_append_of_le_length hw]
      rfl
    · show s.len + n.toNat ≤ (s.data ++ List.replicate n.toNat default).length
      rw [List.length_append, List.length_replicate]
      have : s.len ≤ s.data.length := hw
      omega
  · intro hn
    rw [Grow, if_neg (by omega)]

/-- Witness for C7 at `s = [1,2]` (cap 3), `n = 2` and `n = -1`. -/
theorem claim_C7_witness :
    (∃ r, Grow (⟨[1, 2, 9], 2⟩ : GoSlice Int) 2 = .ok r ∧ r.len = 2 ∧
      r.elems = GoSlice.elems ⟨[1, 2, 9], 2⟩ ∧ 2 + (2 : Int).toNat ≤ r.cap) ∧
    Grow (⟨[1, 2, 9], 2⟩ : GoSlice Int) (-1) = .error () := by
  constructor
  · exact (claim_C7_grow Int ⟨[1, 2, 9], 2⟩ 2 (by decide)).1 (by decide)
  · exact (claim_C7_grow Int ⟨[1, 2, 9], 2⟩ (-1) (by decide)).2 (by decide)

/-- C8: the independently implemented `Contains(s, v)` is true exactly when
`Index(s, v) ≥ 0`, for every sequence and value. -/
theorem claim_C8_contains_iff_index_nonneg :
    ∀ (α : Type) [inst : DecidableEq α] (s : List α) (v : α),
      Contains s v = true ↔ 0 ≤ Index s v := by
  intro α _ s v
  exact (indexGo_nonneg_iff v s 0).symm

/-- C6: for every well-formed slice, the elements of `Compact(s)` have no
two adjacent equal entries, appear in `s` in the same relative order (they
form a sublist of the elements of `s`, so each run of consecutive equal
elements is collapsed to one representative and only adjacency matters),
the backing storage keeps its size (in-place), empty and single-element
inputs are returned unchanged, and
`Compact([1,1,2,2,2,3,1]) = [1,2,3,1]` with the trailing 1 retained. -/
theorem claim_C6_compact :
    (∀ (α : Type) [i1 : DecidableEq α] [i2 : Inhabited α] (s : GoSlice α),
      s.wfS →
      List.Chain' (fun a b => a ≠ b) (Compact s).elems ∧
      List.Sublist (Compact s).elems s.elems ∧
      (Compact s).cap = s.cap ∧
      (s.len = 0 ∨ s.len = 1 → Compact s = s)) ∧
    (Compact (⟨[1, 1, 2, 2, 2, 3, 1], 7⟩ : GoSlice Int)).elems = [1, 2, 3, 1] := by
  constructor
  · intro α _ _ s hw
    obtain ⟨he, hc, _⟩ := CompactFunc_spec s (fun a b => decide (a = b)) hw
    rw [Compact_eq_compactFunc s]
    refine ⟨?_, ?_, hc, ?_⟩
    · rw [he]
      refine (dedupAdj_chain _ s.elems).imp ?_
      intro a b h
      intro hab
      rw [hab] at h
      simp at h
    · rw [he]
      exact dedupAdj_sublist _ s.elems
    · intro h01
      rw [CompactFunc, if_pos h01]
  · rfl

/-- Witness for C6 at `s = [2,2,3]`. -/
theorem claim_C6_witness :
    List.Chain' (fun a b => a ≠ b) (Compact (⟨[2, 2, 3], 3⟩ : GoSlice Int)).elems ∧
    List.Sublist (Compact (⟨[2, 2, 3], 3⟩ : GoSlice Int)).elems
      (GoSlice.elems ⟨[2, 2, 3], 3⟩) ∧
    (Compact (⟨[2, 2, 3], 3⟩ : GoSlice Int)).cap = 3 ∧
    ((3 : Nat) = 0 ∨ (3 : Nat) = 1 → Compact (⟨[2, 2, 3], 3⟩ : GoSlice Int) = ⟨[2, 2, 3], 3⟩) :=
  claim_C6_compact.1 Int ⟨[2, 2, 3], 3⟩ (by decide)

/-- C10: for every well-formed slice and comparison function, the results
of `Compact` and `CompactFunc` never exceed the input's length, and on a
non-empty input both are non-empty with first element `s[0]`. -/
theorem claim_C10_compact_head_and_length :
    ∀ (α : Type) [i1 : DecidableEq α] [i2 : Inhabited α] (s : GoSlice α)
      (eq' : α → α → Bool), s.wfS →
      (CompactFunc s eq').len ≤ s.len ∧ (Compact s).len ≤ s.len ∧
      (0 < s.len →
        0 < (CompactFunc s eq').len ∧
        (CompactFunc s eq').elems.head? = s.elems.head? ∧
        0 < (Compact s).len ∧
        (Compact s).elems.head? = s.elems.head?) := by
  intro α _ _ s eq' hw
  obtain ⟨hfe, _, hfl⟩ := CompactFunc_spec s eq' hw
  obtain ⟨hce, _, hcl⟩ := CompactFunc_spec s (fun a b => decide (a = b)) hw
  rw [Compact_eq_compactFunc s]
  have hle : s.elems.length = s.len := length_elems s hw
  refine ⟨?_, ?_, ?_⟩
  · rw [hfl, ← hle]
    exact dedupAdj_length_le eq' s.elems
  · rw [hcl, ← hle]
    exact dedupAdj_length_le _ s.elems
  · intro hpos
    obtain ⟨x, xs, hxs⟩ : ∃ x xs, s.elems = x :: xs := by
      cases hel : s.elems with
      | nil => exfalso; rw [hel] at hle; simp at hle; omega
      | cons x xs => exact ⟨x, xs, rfl⟩
    refine ⟨?_, ?_, ?_, ?_⟩
    · rw [hfl, hxs]
      exact dedupAdj_pos_length eq' x xs
    · rw [hfe, dedupAdj_headOpt]
    · rw [hcl, hxs]
      exact dedupAdj_pos_length _ x xs
    · rw [hce, dedupAdj_headOpt]

/-- Witness for C10 at `s = [4,4,5]` with `eq'` boolean equality. -/
theorem claim_C10_witness :
    (CompactFunc (⟨[4, 4, 5], 3⟩ : GoSlice Int) (fun a b => a == b)).len ≤ 3 ∧
    (Compact (⟨[4, 4, 5], 3⟩ : GoSlice Int)).len ≤ 3 ∧
    ((0 : Nat) < 3 →
      0 < (CompactFunc (⟨[4, 4, 5], 3⟩ : GoSlice Int) (fun a b => a == b)).len ∧
      (CompactFunc (⟨[4, 4, 5], 3⟩ : GoSlice Int) (fun a b => a == b)).elems.head?
        = (GoSlice.elems ⟨[4, 4, 5], 3⟩).head? ∧
      0 < (Compact (⟨[4, 4, 5], 3⟩ : GoSlice Int)).len ∧
      (Compact (⟨[4, 4, 5], 3⟩ : GoSlice Int)).elems.head?
        = (GoSlice.elems ⟨[4, 4, 5], 3⟩).head?) :=
  claim_C10_compact_head_and_length Int ⟨[4, 4, 5], 3⟩ (fun a b => a == b)
    (by decide)

end GoGenerics
